import Mathlib

/-!
Verification of the telnet client `src/telnet.go` (package `telnet`,
repository streamdp/telnet-client).

Bytes are modelled as `Nat` (a real byte is `< 256`; the wire constants are
the exact protocol values).  The buffered connection reader is modelled as a
`List Nat` of the bytes still available to read; a `bufio` read error
(including end of input / deadline expiry) is modelled as `Option.none`.
Recursive reading loops are written with an explicit fuel argument so that
every definition is executable by kernel reduction; the public wrappers
instantiate the fuel with a bound that is proved sufficient, and stability
lemmas recover the Go loops' unfolding equations.
-/

namespace Telnet

/-- IAC, interpret as command (telnet.go line 16). -/
def IACb : Nat := 255

/-- SB, sub negotiation of the indicated option follows. -/
def SBb : Nat := 250

/-- SE, end of sub negotiation parameters. -/
def SEb : Nat := 240

/-- WILL option-negotiation command byte. -/
def WILLb : Nat := 251

/-- WONT option-negotiation command byte. -/
def WONTb : Nat := 252

/-- DO option-negotiation command byte. -/
def DOb : Nat := 253

/-- DONT option-negotiation command byte. -/
def DONTb : Nat := 254

/-- `skipSBSequence` (telnet.go 126-147): repeatedly `Discard(1)` then
`Peek(2)`; when the peeked pair is `IAC, SE` discard those two bytes and
stop.  `none` models a read error (`Discard`/`Peek` hitting end of input). -/
def skipSBSequence : List Nat → Option (List Nat)
  | [] => none
  | _ :: rest =>
    match rest with
    | a :: b :: t => if a = IACb ∧ b = SEb then some t else skipSBSequence rest
    | _ => none

/-- `skipCommand` (telnet.go 149-165): peek one byte after the already
consumed IAC; on WILL/WONT/DO/DONT discard two bytes (the command byte and
the option byte); on SB run `skipSBSequence` (which starts by discarding the
SB byte); on any other byte do nothing. -/
def skipCommand : List Nat → Option (List Nat)
  | [] => none
  | p :: rest =>
    if p = WILLb ∨ p = WONTb ∨ p = DOb ∨ p = DONTb then
      match rest with
      | _ :: r => some r
      | [] => none
    else if p = SBb then skipSBSequence (p :: rest)
    else some (p :: rest)

/-- Fueled body of `ReadByte` (telnet.go 168-182): read one byte; if it is
not IAC return it, otherwise `skipCommand` and loop. -/
def readByteF : Nat → List Nat → Option (Nat × List Nat)
  | 0, _ => none
  | _ + 1, [] => none
  | fuel + 1, b :: rest =>
    if b = IACb then
      match skipCommand rest with
      | none => none
      | some m => readByteF fuel m
    else some (b, rest)

/-- `ReadByte` (telnet.go 168-182): the next payload byte of the stream and
the bytes remaining after it, or `none` on a read error. -/
def ReadByte (s : List Nat) : Option (Nat × List Nat) :=
  readByteF (s.length + 1) s

/-- Fueled decode loop: the sequence of payload bytes `ReadByte` delivers
until the first read error (on a finite stream: until the input runs out). -/
def decodeAllF : Nat → List Nat → List Nat
  | 0, _ => []
  | fuel + 1, s =>
    match ReadByte s with
    | none => []
    | some (b, s') => b :: decodeAllF fuel s'

/-- All payload bytes of a stream, in order: what a caller looping on
`ReadByte` (telnet.go 168-182) receives before the stream is exhausted. -/
def decodeAll (s : List Nat) : List Nat :=
  decodeAllF (s.length + 1) s

/-- Result of one `ReadUntil` call: the accumulator after the call (Go
mutates it through the `*[]byte` pointer, so it is part of the result even
on error), the count of bytes appended by this call, the unread remainder of
the stream, and whether the call succeeded (`ok = false` models a non-nil
`error`; the remainder is not used further on the error path). -/
structure RUResult where
  data : List Nat
  n : Nat
  rest : List Nat
  ok : Bool
deriving DecidableEq

/-- Fueled body of `ReadUntil` (telnet.go 186-203).  `b` is the local
variable `var b byte`, which Go zero-initialises: the loop checks
`b == delim` against the *previously read* byte (initially `0`) before each
read, appends each successfully read byte and counts it. -/
def ruGo (delim : Nat) : Nat → Nat → List Nat → Nat → List Nat → RUResult
  | 0, _, data, n, s => ⟨data, n, s, false⟩
  | fuel + 1, b, data, n, s =>
    if b = delim then ⟨data, n, s, true⟩
    else
      match ReadByte s with
      | none => ⟨data, n, [], false⟩
      | some (b', s') => ruGo delim fuel b' (data ++ [b']) (n + 1) s'

/-- `ReadUntil` (telnet.go 186-203): append payload bytes from `ReadByte`
to `data` until a byte equal to `delim` has been read (that byte included),
returning the new accumulator, the number of bytes appended and the
remaining stream. -/
def ReadUntil (data : List Nat) (delim : Nat) (s : List Nat) : RUResult :=
  ruGo delim (s.length + 1) 0 data 0 s

/-- `findNewLinePos` loop body (telnet.go 205-218): iterate `i` downward
from `len(data)-1`; `pb` holds the byte of the previous (higher) index,
zero-initialised before the first iteration; return `i` as soon as
`pb == '\n' && data[i] == '\r'`.  The fuel argument is `i + 1`. -/
def fnlpAux (data : List Nat) : Nat → Nat → Int
  | _, 0 => -1
  | pb, k + 1 =>
    if pb = 10 ∧ data.getD k 0 = 13 then (k : Int)
    else fnlpAux data (data.getD k 0) k

/-- `findNewLinePos` (telnet.go 205-218): index of the most recent
occurrence of the byte `'\r'` immediately followed by `'\n'`, scanning the
buffer backward; `-1` when there is none. -/
def findNewLinePos (data : List Nat) : Int :=
  fnlpAux data 0 data.length

/-- The line-start update of `ReadUntilPrompt` (telnet.go 246-249): when
`findNewLinePos` finds a position `n`, the line start becomes `n + 2`,
otherwise it keeps its previous value. -/
def lineStart (output : List Nat) (prev : Nat) : Nat :=
  if findNewLinePos output = -1 then prev else (findNewLinePos output).toNat + 2

/-- The local scan state of one `ReadUntilPrompt` call (telnet.go 224-259):
the accumulated `output`, `delimPos`, `linePos`, and the unread remainder of
the stream. -/
structure ScanState where
  output : List Nat
  delimPos : Nat
  linePos : Nat
  rest : List Nat
deriving DecidableEq

/-- One iteration of the `ReadUntilPrompt` loop body up to the predicate
call (telnet.go 240-251): run `ReadUntil`, advance `delimPos` by its count,
recompute `linePos`, and slice the current chunk
`output[linePos:delimPos]`.  Returns the `ReadUntil` result, the new
`delimPos`, the new `linePos` and the chunk. -/
def rupMeasure (delim : Nat) (st : ScanState) : RUResult × Nat × Nat × List Nat :=
  let r := ReadUntil st.output delim st.rest
  let dp := st.delimPos + r.n
  let lp := lineStart r.data st.linePos
  (r, dp, lp, (r.data.take dp).drop lp)

/-- How one `ReadUntilPrompt` call ends: the predicate stopped it, a read
error aborted it, or (only possible when the delimiter byte is `0`, where
the Go loop can spin without consuming input) the fuel ran out. -/
inductive RPStatus where
  | stopped
  | readErr
  | fuelOut
deriving DecidableEq

/-- Fueled `ReadUntilPrompt` loop (telnet.go 234-256).  On a read error the
Go function returns the named result `output`, which already contains the
bytes the failing `ReadUntil` appended. -/
def rupLoop (process : List Nat → Bool) (delim : Nat) :
    Nat → ScanState → List Nat × RPStatus × List Nat
  | 0, st => (st.output, RPStatus.fuelOut, st.rest)
  | fuel + 1, st =>
    let m := rupMeasure delim st
    if m.1.ok then
      if process m.2.2.2 then (m.1.data, RPStatus.stopped, m.1.rest)
      else rupLoop process delim fuel ⟨m.1.data, m.2.1, m.2.2.1, m.1.rest⟩
    else (m.1.data, RPStatus.readErr, [])

/-- `ReadUntilPrompt` (telnet.go 224-259): repeatedly append a
delimiter-bounded fragment, recompute the current chunk, and stop when
`process chunk` returns true, returning the whole accumulated output. -/
def ReadUntilPrompt (process : List Nat → Bool) (delim : Nat) (s : List Nat) :
    List Nat × RPStatus × List Nat :=
  rupLoop process delim (s.length + 1) ⟨[], 0, 0, s⟩

/-- Membership in the Go regexp character class `[\w\d-_]` of the default
login and banner patterns (telnet.go 39-42): `\w` is `[0-9A-Za-z_]`, `\d`
is `[0-9]`, and `-` and `_` are literal. -/
def isPromptWordChar (c : Nat) : Bool :=
  (48 ≤ c && c ≤ 57) || (65 ≤ c && c ≤ 90) || (97 ≤ c && c ≤ 122) ||
    c == 95 || c == 45

/-- Membership in the second character class of the default banner pattern
(telnet.go 41-42), which lists `\w`, `\d`, the range `'/'-'_'` (codes 47 to
95) and the literal `~` (code 126). -/
def isPromptPathChar (c : Nat) : Bool :=
  (48 ≤ c && c ≤ 57) || (65 ≤ c && c ≤ 90) || (97 ≤ c && c ≤ 122) ||
    c == 95 || (47 ≤ c && c ≤ 95) || c == 126

/-- Length of the maximal prefix of `s` whose bytes satisfy `p`. -/
def runLen (p : Nat → Bool) : List Nat → Nat
  | [] => 0
  | c :: t => if p c then runLen p t + 1 else 0

/-- Length of the match of the default banner pattern (telnet.go 41-42),
`word+ '@' word+ ':' path+ ('$' or '#')` with `word` the class of
`isPromptWordChar` and `path` the class of `isPromptPathChar`, anchored at
the head of `s`, or `none`.  Because `@` (64), `:` (58), `$` (36) and `#` (35)
all lie outside the classes their preceding `+` repeats, the greedy RE2
match at a given start position is forced: each repetition must consume
exactly the maximal run of its class, so the anchored match is unique and
this function computes it. -/
def bannerMatchAt (s : List Nat) : Option Nat :=
  let w1 := runLen isPromptWordChar s
  if w1 = 0 then none
  else
    match s.drop w1 with
    | 64 :: t1 =>
      let w2 := runLen isPromptWordChar t1
      if w2 = 0 then none
      else
        match t1.drop w2 with
        | 58 :: t2 =>
          let p := runLen isPromptPathChar t2
          if p = 0 then none
          else
            match t2.drop p with
            | 36 :: _ => some (w1 + 1 + w2 + 1 + p + 1)
            | 35 :: _ => some (w1 + 1 + w2 + 1 + p + 1)
            | _ => none
        | _ => none
    | _ => none

/-- `tc.BannerRe.Find` for the default banner pattern: the leftmost match,
or `[]` when there is none (Go returns `nil`; the only use sites test
`len(m) > 0`). -/
def bannerFind : List Nat → List Nat
  | [] =>
    match bannerMatchAt [] with
    | some len => List.take len []
    | none => []
  | c :: t =>
    match bannerMatchAt (c :: t) with
    | some len => (c :: t).take len
    | none => bannerFind t

/-- `tc.BannerRe.ReplaceAll(output, []byte{})` for the default banner
pattern (telnet.go 268): delete every non-overlapping leftmost match,
resuming the scan after each deleted match.  Each match is at least one
byte long, so the input length bounds the number of steps. -/
def bannerReplaceAllF : Nat → List Nat → List Nat
  | 0, s => s
  | _ + 1, [] => []
  | fuel + 1, c :: t =>
    match bannerMatchAt (c :: t) with
    | some len => bannerReplaceAllF fuel ((c :: t).drop len)
    | none => c :: bannerReplaceAllF fuel t

/-- Strip every occurrence of the default banner pattern from `s`. -/
def bannerReplaceAll (s : List Nat) : List Nat :=
  bannerReplaceAllF s.length s

/-- `bytes.Trim(output, " ")` (telnet.go 269): drop leading and trailing
space bytes. -/
def trimSpace (s : List Nat) : List Nat :=
  ((s.dropWhile (fun c => c == 32)).reverse.dropWhile (fun c => c == 32)).reverse

/-- The stopping predicate of `ReadUntilBanner` (telnet.go 263-266): the
chunk contains a match of the banner pattern. -/
def bannerStop (data : List Nat) : Bool :=
  decide (0 < (bannerFind data).length)

/-- `ReadUntilBanner` (telnet.go 262-272) with the default banner pattern:
read until a chunk matches the banner, then strip every banner occurrence
from the whole output and trim spaces.  Go applies the stripping and
trimming without checking the error first, so the error path returns the
processed partial output together with the error. -/
def ReadUntilBanner (delim : Nat) (s : List Nat) : List Nat × RPStatus × List Nat :=
  let r := ReadUntilPrompt bannerStop delim s
  (trimSpace (bannerReplaceAll r.1), r.2.1, r.2.2)

/-- `strings.Join(args, " ")` on byte lists (telnet.go 329). -/
def joinBytes (args : List (List Nat)) : List Nat :=
  List.intercalate [32] args

/-- `Execute` (telnet.go 320-340) with the default banner pattern.  The
connection's reader is `buffered ++ pending`: `buffered` are the bytes
sitting in the `bufio` buffer, which `tc.reader.Discard(tc.reader.Buffered())`
throws away before the command is sent.  Returns the request bytes written
to the stream (`name + " " + strings.Join(args, " ") + "\r\n"`) and the
`ReadUntilBanner` result on the remaining stream. -/
def Execute (buffered pending : List Nat) (name : List Nat)
    (args : List (List Nat)) (delim : Nat) :
    List Nat × (List Nat × RPStatus × List Nat) :=
  let afterDiscard := (buffered ++ pending).drop buffered.length
  let request := name ++ [32] ++ joinBytes args ++ [13, 10]
  (request, ReadUntilBanner delim afterDiscard)

/-- `findInputPrompt` (telnet.go 274-287), with the regexp's `Find`
abstracted as a function returning the matched bytes (`[]` for no match):
when the pattern matches the buffer, write `response + "\r\n"` to the
stream and report true.  The second component records the writes emitted. -/
def findInputPrompt (find : List Nat → List Nat) (response : List Nat)
    (buffer : List Nat) : Bool × List (List Nat) :=
  if (find buffer).length = 0 then (false, [])
  else (true, [response ++ [13, 10]])

/-- The per-fragment predicate of `waitWelcomeSigns` (telnet.go 291-307):
try the login pattern, then the password pattern, then the banner pattern;
a successful credential match writes its response and keeps scanning
(returns false); only a banner match stops.  The second component records
the writes emitted during this single call. -/
def waitWelcomeSignsStep (loginFind passwordFind bannerF : List Nat → List Nat)
    (login password : List Nat) (data : List Nat) : Bool × List (List Nat) :=
  let lp := findInputPrompt loginFind login data
  if lp.1 then (false, lp.2)
  else
    let pp := findInputPrompt passwordFind password data
    if pp.1 then (false, pp.2)
    else (decide (0 < (bannerF data).length), [])

/-- `re.Find` for a regexp that is a literal byte string `pat`: the match
is `pat` itself when it occurs in the buffer, else `[]`. -/
def literalFind (pat : List Nat) (buffer : List Nat) : List Nat :=
  if pat <:+: buffer then pat else []

/-- The byte pair `findNewLinePos` looks for: `'\r'` (13) at index `i`
immediately followed by `'\n'` (10), both inside the buffer. -/
abbrev NLpair (data : List Nat) (i : Nat) : Prop :=
  data.getD i 0 = 13 ∧ data.getD (i + 1) 0 = 10 ∧ i + 2 ≤ data.length

/-- No adjacent pair `IAC, SE` occurs inside the list: the condition under
which `skipSBSequence` consumes a subnegotiation body in full and stops
exactly at the terminator. -/
def noIACSE : List Nat → Bool
  | a :: b :: t => !(a == IACb && b == SEb) && noIACSE (b :: t)
  | _ => true

/-- Well-formed telnet input: payload bytes (never the escape marker),
2-byte option commands `IAC WILL/WONT/DO/DONT option`, and subnegotiation
blocks `IAC SB inner IAC SE` whose body contains no adjacent `IAC, SE`
pair.  `Wf s p` relates the wire stream `s` to its payload `p`. -/
inductive Wf : List Nat → List Nat → Prop where
  | nil : Wf [] []
  | payload (b : Nat) (hb : b < 256) (hIAC : b ≠ IACb) {s p : List Nat}
      (h : Wf s p) : Wf (b :: s) (b :: p)
  | cmd (c o : Nat) (hc : c = WILLb ∨ c = WONTb ∨ c = DOb ∨ c = DONTb)
      (ho : o < 256) {s p : List Nat} (h : Wf s p) : Wf (IACb :: c :: o :: s) p
  | sub (inner : List Nat) (hin : noIACSE inner = true)
      (hbytes : ∀ x ∈ inner, x < 256) {s p : List Nat} (h : Wf s p) :
      Wf (IACb :: SBb :: (inner ++ IACb :: SEb :: s)) p

/-- The scan-cursor invariant of `ReadUntilPrompt` (telnet.go 224-259):
`delimPos` equals the accumulated length, `linePos` never exceeds it, and a
nonzero `linePos` sits exactly two bytes after a `'\r', '\n'` pair of the
accumulated output. -/
abbrev ScanInv (st : ScanState) : Prop :=
  st.delimPos = st.output.length ∧ st.linePos ≤ st.delimPos ∧
    (st.linePos = 0 ∨ (2 ≤ st.linePos ∧ NLpair st.output (st.linePos - 2)))

/-- The remote bytes of the spec's end-to-end `Execute` scenario:
`"\n\rfile1\nfile2\n\ruser@host:~$ "`. -/
def execScenario : List Nat :=
  [10, 13, 102, 105, 108, 101, 49, 10, 102, 105, 108, 101, 50, 10, 13,
   117, 115, 101, 114, 64, 104, 111, 115, 116, 58, 126, 36, 32]

theorem skipSBSequence_length {s r : List Nat} (h : skipSBSequence s = some r) :
    r.length < s.length := by
  induction s with
  | nil => simp [skipSBSequence] at h
  | cons x rest ih =>
    match rest, ih with
    | a :: b :: t, ih =>
      by_cases hab : a = IACb ∧ b = SEb
      · simp [skipSBSequence, hab] at h
        subst h; simp; omega
      · simp [skipSBSequence, hab] at h
        have := ih h
        simpa using Nat.lt_succ_of_lt this
    | [], _ => simp [skipSBSequence] at h
    | [a], _ => simp [skipSBSequence] at h

theorem skipCommand_length {s r : List Nat} (h : skipCommand s = some r) :
    r.length ≤ s.length := by
  match s with
  | [] => simp [skipCommand] at h
  | p :: rest =>
    by_cases hcmd : p = WILLb ∨ p = WONTb ∨ p = DOb ∨ p = DONTb
    · match rest with
      | [] => simp [skipCommand, hcmd] at h
      | _ :: r =>
        simp [skipCommand, hcmd] at h
        subst h; simp; omega
    · by_cases hsb : p = SBb
      · simp [skipCommand, hcmd, hsb] at h
        have := skipSBSequence_length (s := SBb :: rest) (by simpa [hsb] using h)
        simp only [List.length_cons] at this ⊢
        omega
      · simp [skipCommand, hcmd, hsb] at h
        subst h; omega

theorem readByteF_consumes {fuel : Nat} {s rest : List Nat} {b : Nat}
    (h : readByteF fuel s = some (b, rest)) : rest.length < s.length := by
  induction fuel generalizing s with
  | zero => simp [readByteF] at h
  | succ fuel ih =>
    match s with
    | [] => simp [readByteF] at h
    | x :: t =>
      by_cases hx : x = IACb
      · simp [readByteF, hx] at h
        match hm : skipCommand t with
        | none => rw [hm] at h; exact absurd h (by simp)
        | some m =>
          rw [hm] at h
          have h1 := ih h
          have h2 := skipCommand_length hm
          simp; omega
      · simp [readByteF, hx] at h
        obtain ⟨hb, hr⟩ := h
        subst hr; simp

theorem readByteF_not_IAC {fuel : Nat} {s rest : List Nat} {b : Nat}
    (h : readByteF fuel s = some (b, rest)) : b ≠ IACb := by
  induction fuel generalizing s with
  | zero => simp [readByteF] at h
  | succ fuel ih =>
    match s with
    | [] => simp [readByteF] at h
    | x :: t =>
      by_cases hx : x = IACb
      · simp [readByteF, hx] at h
        match hm : skipCommand t with
        | none => rw [hm] at h; exact absurd h (by simp)
        | some m => rw [hm] at h; exact ih h
      · simp [readByteF, hx] at h
        obtain ⟨hb, hr⟩ := h
        subst hb; exact hx

theorem readByteF_stable {f₁ f₂ : Nat} {s : List Nat}
    (h₁ : s.length < f₁) (h₂ : s.length < f₂) :
    readByteF f₁ s = readByteF f₂ s := by
  induction f₁ generalizing s f₂ with
  | zero => omega
  | succ f₁ ih =>
    match f₂, h₂ with
    | f₂ + 1, h₂ =>
      match s with
      | [] => simp [readByteF]
      | x :: t =>
        by_cases hx : x = IACb
        · simp only [readByteF, hx, if_pos rfl]
          match hm : skipCommand t with
          | none => rfl
          | some m =>
            have hml := skipCommand_length hm
            have : m.length < f₁ := by simp at h₁; omega
            have : m.length < f₂ := by simp at h₂; omega
            exact ih (by omega) (by omega)
        · simp [readByteF, hx]

theorem ReadByte_nil : ReadByte [] = none := rfl

theorem ReadByte_cons (b : Nat) (s : List Nat) :
    ReadByte (b :: s) =
      if b = IACb then
        match skipCommand s with
        | none => none
        | some m => ReadByte m
      else some (b, s) := by
  unfold ReadByte
  by_cases hb : b = IACb
  · simp only [readByteF, hb, if_pos rfl]
    match hm : skipCommand s with
    | none => rfl
    | some m =>
      have := skipCommand_length hm
      exact readByteF_stable (by simp; omega) (by omega)
  · simp [readByteF, hb]

theorem ReadByte_consumes {s rest : List Nat} {b : Nat}
    (h : ReadByte s = some (b, rest)) : rest.length < s.length :=
  readByteF_consumes h

theorem decodeAllF_stable {f₁ f₂ : Nat} {s : List Nat}
    (h₁ : s.length < f₁) (h₂ : s.length < f₂) :
    decodeAllF f₁ s = decodeAllF f₂ s := by
  induction f₁ generalizing s f₂ with
  | zero => omega
  | succ f₁ ih =>
    match f₂, h₂ with
    | f₂ + 1, h₂ =>
      simp only [decodeAllF]
      match hr : ReadByte s with
      | none => rfl
      | some (b, s') =>
        have hc := ReadByte_consumes hr
        have h3 : decodeAllF f₁ s' = decodeAllF f₂ s' := ih (by omega) (by omega)
        simp [h3]

theorem decodeAll_eq (s : List Nat) :
    decodeAll s =
      match ReadByte s with
      | none => []
      | some (b, s') => b :: decodeAll s' := by
  unfold decodeAll
  simp only [decodeAllF]
  match hr : ReadByte s with
  | none => rfl
  | some (b, s') =>
    have hc := ReadByte_consumes hr
    have h3 : decodeAllF s.length s' = decodeAllF (s'.length + 1) s' :=
      decodeAllF_stable (by omega) (by omega)
    simp [h3, decodeAll, decodeAllF]

theorem decodeAll_congr {s t : List Nat} (h : ReadByte s = ReadByte t) :
    decodeAll s = decodeAll t := by
  rw [decodeAll_eq s, decodeAll_eq t, h]

theorem ruGo_stable {delim : Nat} {f₁ f₂ b n : Nat} {data s : List Nat}
    (h₁ : s.length < f₁) (h₂ : s.length < f₂) :
    ruGo delim f₁ b data n s = ruGo delim f₂ b data n s := by
  induction f₁ generalizing s f₂ b data n with
  | zero => omega
  | succ f₁ ih =>
    match f₂, h₂ with
    | f₂ + 1, h₂ =>
      by_cases hb : b = delim
      · simp [ruGo, hb]
      · simp only [ruGo, if_neg hb]
        match hr : ReadByte s with
        | none => rfl
        | some (b', s') =>
          have hc := ReadByte_consumes hr
          exact ih (by omega) (by omega)

theorem ReadUntil_eq (data : List Nat) (delim : Nat) (s : List Nat) :
    ReadUntil data delim s =
      if 0 = delim then ⟨data, 0, s, true⟩
      else
        match ReadByte s with
        | none => ⟨data, 0, [], false⟩
        | some (b', s') => ruGo delim (s'.length + 1) b' (data ++ [b']) 1 s' := by
  unfold ReadUntil
  by_cases h0 : 0 = delim
  · simp [ruGo, h0]
  · simp only [ruGo, if_neg h0]
    match hr : ReadByte s with
    | none => rfl
    | some (b', s') =>
      have hc := ReadByte_consumes hr
      have h3 : ruGo delim s.length b' (data ++ [b']) 1 s' =
          ruGo delim (s'.length + 1) b' (data ++ [b']) 1 s' :=
        ruGo_stable (by omega) (by omega)
      exact h3

theorem ruGo_extend (delim : Nat) :
    ∀ (fuel b n : Nat) (data s : List Nat),
      ∃ w, (ruGo delim fuel b data n s).data = data ++ w ∧
        (ruGo delim fuel b data n s).n = n + w.length := by
  intro fuel
  induction fuel with
  | zero => intro b n data s; exact ⟨[], by simp [ruGo], by simp [ruGo]⟩
  | succ fuel ih =>
    intro b n data s
    by_cases hb : b = delim
    · exact ⟨[], by simp [ruGo, hb], by simp [ruGo, hb]⟩
    · simp only [ruGo, if_neg hb]
      match hr : ReadByte s with
      | none => exact ⟨[], by simp, by simp⟩
      | some (b', s') =>
        obtain ⟨w, hd, hn⟩ := ih b' (n + 1) (data ++ [b']) s'
        exact ⟨b' :: w, by simp [hd], by simp [hn]; omega⟩

theorem ruGo_ok_spec (delim : Nat) :
    ∀ (fuel b n : Nat) (data s : List Nat), b ≠ delim →
      (ruGo delim fuel b data n s).ok = true →
      ∃ w, (ruGo delim fuel b data n s).data = data ++ w ∧
        (ruGo delim fuel b data n s).n = n + w.length ∧
        w ≠ [] ∧ w.getLast? = some delim ∧ ¬ delim ∈ w.dropLast := by
  intro fuel
  induction fuel with
  | zero => intro b n data s hb hok; simp [ruGo] at hok
  | succ fuel ih =>
    intro b n data s hb hok
    simp only [ruGo, if_neg hb] at hok ⊢
    match hr : ReadByte s with
    | none => rw [hr] at hok; simp at hok
    | some (b', s') =>
      rw [hr] at hok
      by_cases hb' : b' = delim
      · subst hb'
        match fuel, hok with
        | fuel + 1, _ =>
          refine ⟨[b'], ?_, ?_, by simp, by simp, by simp⟩
          · simp [ruGo]
          · simp [ruGo]
      · obtain ⟨w, hd, hn, hne, hl, hni⟩ := ih b' (n + 1) (data ++ [b']) s' hb' hok
        refine ⟨b' :: w, by simp [hd], by simp [hn]; omega, by simp, ?_, ?_⟩
        · match w, hne with
          | c :: t, _ => simpa using hl
        · match w, hne with
          | c :: t, _ =>
            simp only [List.dropLast_cons₂, List.mem_cons] at hni ⊢
            push_neg
            exact ⟨fun h => hb' h.symm, hni⟩

theorem ruGo_noDelim (delim : Nat) :
    ∀ (fuel b n : Nat) (data s : List Nat), s.length < fuel → b ≠ delim →
      ¬ delim ∈ decodeAll s →
      ruGo delim fuel b data n s =
        ⟨data ++ decodeAll s, n + (decodeAll s).length, [], false⟩ := by
  intro fuel
  induction fuel with
  | zero => intro b n data s h; omega
  | succ fuel ih =>
    intro b n data s hf hb hnot
    simp only [ruGo, if_neg hb]
    match hr : ReadByte s with
    | none =>
      rw [decodeAll_eq, hr] at hnot ⊢
      simp
    | some (b', s') =>
      rw [decodeAll_eq, hr] at hnot ⊢
      simp only [List.mem_cons, not_or] at hnot
      obtain ⟨hb', hnot'⟩ := hnot
      have hc := ReadByte_consumes hr
      dsimp only
      rw [ih b' (n + 1) (data ++ [b']) s' (by omega) (fun h => hb' h.symm) hnot']
      simp [RUResult.mk.injEq, List.append_assoc]
      omega

theorem fnlpAux_zero (data : List Nat) (pb : Nat) : fnlpAux data pb 0 = -1 := rfl

theorem fnlpAux_succ (data : List Nat) (pb k : Nat) :
    fnlpAux data pb (k + 1) =
      if pb = 10 ∧ data.getD k 0 = 13 then (k : Int)
      else fnlpAux data (data.getD k 0) k := rfl

theorem fnlpAux_cases (data : List Nat) :
    ∀ (k pb : Nat), fnlpAux data pb k = -1 ∨ ∃ i : Nat, fnlpAux data pb k = (i : Int) := by
  intro k
  induction k with
  | zero => intro pb; left; rfl
  | succ k ih =>
    intro pb
    rw [fnlpAux_succ]
    by_cases h : pb = 10 ∧ data.getD k 0 = 13
    · right; exact ⟨k, by rw [if_pos h]⟩
    · rw [if_neg h]; exact ih (data.getD k 0)

theorem fnlpAux_sound (data : List Nat) :
    ∀ (k pb i : Nat), k ≤ data.length →
      ((k = data.length ∧ pb = 0) ∨ (k < data.length ∧ pb = data.getD k 0)) →
      fnlpAux data pb k = (i : Int) → NLpair data i := by
  intro k
  induction k with
  | zero =>
    intro pb i _ _ h
    rw [fnlpAux_zero] at h
    exact absurd h (by omega)
  | succ k ih =>
    intro pb i hk hpb h
    rw [fnlpAux_succ] at h
    by_cases hcond : pb = 10 ∧ data.getD k 0 = 13
    · rw [if_pos hcond] at h
      have hik : k = i := by omega
      subst hik
      rcases hpb with ⟨hlen, hpb0⟩ | ⟨hlt, hpbv⟩
      · exact absurd hcond.1 (by omega)
      · exact ⟨hcond.2, by rw [← hpbv]; exact hcond.1, by omega⟩
    · rw [if_neg hcond] at h
      exact ih (data.getD k 0) i (by omega) (Or.inr ⟨by omega, rfl⟩) h

theorem fnlpAux_lower (data : List Nat) :
    ∀ (k pb j : Nat), NLpair data j → j + 1 < k →
      ∃ i : Nat, fnlpAux data pb k = (i : Int) ∧ j ≤ i := by
  intro k
  induction k with
  | zero => intro pb j _ h; omega
  | succ k ih =>
    intro pb j hj hjk
    rw [fnlpAux_succ]
    by_cases hcond : pb = 10 ∧ data.getD k 0 = 13
    · exact ⟨k, by rw [if_pos hcond], by omega⟩
    · rw [if_neg hcond]
      by_cases hedge : j + 1 = k
      · subst hedge
        refine ⟨j, ?_, le_refl j⟩
        rw [fnlpAux_succ, if_pos ⟨hj.2.1, hj.1⟩]
      · exact ih (data.getD k 0) j hj (by omega)

theorem findNewLinePos_def (data : List Nat) :
    findNewLinePos data = fnlpAux data 0 data.length := rfl

theorem findNewLinePos_spec (data : List Nat) :
    (findNewLinePos data = -1 ∧ ∀ j, ¬ NLpair data j) ∨
      (∃ i : Nat, findNewLinePos data = (i : Int) ∧ NLpair data i ∧
        ∀ j, NLpair data j → j ≤ i) := by
  rw [findNewLinePos_def]
  rcases fnlpAux_cases data data.length 0 with h | ⟨i, h⟩
  · left
    refine ⟨h, fun j hj => ?_⟩
    obtain ⟨i, hi, _⟩ := fnlpAux_lower data data.length 0 j hj (by omega)
    rw [h] at hi
    exact absurd hi (by omega)
  · right
    refine ⟨i, h, fnlpAux_sound data data.length 0 i le_rfl (Or.inl ⟨rfl, rfl⟩) h, ?_⟩
    intro j hj
    obtain ⟨i', hi', hji'⟩ := fnlpAux_lower data data.length 0 j hj (by omega)
    rw [h] at hi'
    omega

theorem NLpair_append {data : List Nat} {j : Nat} (w : List Nat)
    (h : NLpair data j) : NLpair (data ++ w) j := by
  obtain ⟨h13, h10, hlen⟩ := h
  refine ⟨?_, ?_, ?_⟩
  · rw [List.getD_append _ _ _ _ (by omega)]; exact h13
  · rw [List.getD_append _ _ _ _ (by omega)]; exact h10
  · simp; omega

theorem ReadUntil_extend (data : List Nat) (delim : Nat) (s : List Nat) :
    ∃ w, (ReadUntil data delim s).data = data ++ w ∧
      (ReadUntil data delim s).n = w.length := by
  obtain ⟨w, h1, h2⟩ := ruGo_extend delim (s.length + 1) 0 0 data s
  exact ⟨w, h1, by simpa using h2⟩

theorem ReadUntil_ok_spec {data s : List Nat} {delim : Nat} (hd : delim ≠ 0)
    (hok : (ReadUntil data delim s).ok = true) :
    ∃ w, (ReadUntil data delim s).data = data ++ w ∧
      (ReadUntil data delim s).n = w.length ∧
      w ≠ [] ∧ w.getLast? = some delim ∧ ¬ delim ∈ w.dropLast := by
  obtain ⟨w, h1, h2, h3, h4, h5⟩ :=
    ruGo_ok_spec delim (s.length + 1) 0 0 data s (fun h => hd h.symm) hok
  exact ⟨w, h1, by simpa using h2, h3, h4, h5⟩

theorem ReadUntil_noDelim {s : List Nat} {delim : Nat} (data : List Nat)
    (hd : delim ≠ 0) (hnot : ¬ delim ∈ decodeAll s) :
    ReadUntil data delim s =
      ⟨data ++ decodeAll s, (decodeAll s).length, [], false⟩ := by
  have := ruGo_noDelim delim (s.length + 1) 0 0 data s (by omega)
    (fun h => hd h.symm) hnot
  simpa using this

theorem ruGo_decode (delim : Nat) :
    ∀ (fuel b n : Nat) (data s : List Nat), s.length < fuel →
      (ruGo delim fuel b data n s).data ++
          decodeAll ((ruGo delim fuel b data n s).rest) =
        data ++ decodeAll s := by
  intro fuel
  induction fuel with
  | zero => intro b n data s h; omega
  | succ fuel ih =>
    intro b n data s hf
    by_cases hb : b = delim
    · simp [ruGo, hb]
    · simp only [ruGo, if_neg hb]
      match hr : ReadByte s with
      | none =>
        rw [decodeAll_eq s, hr]
        rfl
      | some (b', s') =>
        have hc := ReadByte_consumes hr
        rw [decodeAll_eq s, hr]
        dsimp only
        rw [ih b' (n + 1) (data ++ [b']) s' (by omega)]
        simp

theorem ruGo_err_rest (delim : Nat) :
    ∀ (fuel b n : Nat) (data s : List Nat), s.length < fuel →
      (ruGo delim fuel b data n s).ok = false →
      (ruGo delim fuel b data n s).rest = [] := by
  intro fuel
  induction fuel with
  | zero => intro b n data s h; omega
  | succ fuel ih =>
    intro b n data s hf hok
    by_cases hb : b = delim
    · simp [ruGo, hb] at hok
    · simp only [ruGo, if_neg hb] at hok ⊢
      match hr : ReadByte s with
      | none => rfl
      | some (b', s') =>
        rw [hr] at hok
        have hc := ReadByte_consumes hr
        exact ih b' (n + 1) (data ++ [b']) s' (by omega) hok

theorem ReadUntil_decode (data : List Nat) (delim : Nat) (s : List Nat) :
    (ReadUntil data delim s).data ++ decodeAll ((ReadUntil data delim s).rest) =
      data ++ decodeAll s :=
  ruGo_decode delim (s.length + 1) 0 0 data s (by omega)

theorem ReadUntil_err_data (data : List Nat) {delim : Nat} {s : List Nat}
    (h : (ReadUntil data delim s).ok = false) :
    (ReadUntil data delim s).data = data ++ decodeAll s := by
  have h1 := ReadUntil_decode data delim s
  have h2 : (ReadUntil data delim s).rest = [] :=
    ruGo_err_rest delim (s.length + 1) 0 0 data s (by omega) h
  rw [h2] at h1
  have h0 : decodeAll ([] : List Nat) = [] := rfl
  rw [h0, List.append_nil] at h1
  exact h1

theorem rupLoop_err_output (process : List Nat → Bool) (delim : Nat) :
    ∀ (fuel : Nat) (st : ScanState) (out r : List Nat),
      rupLoop process delim fuel st = (out, RPStatus.readErr, r) →
      out = st.output ++ decodeAll st.rest := by
  intro fuel
  induction fuel with
  | zero =>
    intro st out r h
    simp [rupLoop] at h
  | succ fuel ih =>
    intro st out r h
    rw [rupLoop] at h
    by_cases hok : (rupMeasure delim st).1.ok = true
    · rw [if_pos hok] at h
      by_cases hp : process (rupMeasure delim st).2.2.2 = true
      · rw [if_pos hp] at h
        simp at h
      · rw [if_neg hp] at h
        have hout := ih ⟨(rupMeasure delim st).1.data, (rupMeasure delim st).2.1,
          (rupMeasure delim st).2.2.1, (rupMeasure delim st).1.rest⟩ out r h
        rw [hout]
        exact ReadUntil_decode st.output delim st.rest
    · rw [if_neg hok] at h
      have hout : out = (rupMeasure delim st).1.data := by
        have := congrArg Prod.fst h
        exact this.symm
      rw [hout]
      exact ReadUntil_err_data st.output (by simpa using hok)

theorem skipSBSequence_through :
    ∀ (inner : List Nat), noIACSE inner = true →
      ∀ (x : Nat) (s : List Nat),
        skipSBSequence (x :: (inner ++ IACb :: SEb :: s)) = some s := by
  intro inner
  induction inner with
  | nil =>
    intro _ x s
    simp [skipSBSequence]
  | cons a t ih =>
    intro hin x s
    match t with
    | [] =>
      simp only [List.cons_append, List.nil_append, skipSBSequence]
      rw [if_neg (by simp [IACb, SEb])]
      exact ih rfl a s
    | b :: t2 =>
      simp only [noIACSE, Bool.and_eq_true, Bool.not_eq_true', beq_eq_false_iff_ne,
        ne_eq] at hin
      simp only [List.cons_append, skipSBSequence]
      rw [if_neg ?_]
      · exact ih hin.2 a s
      · intro hab
        obtain ⟨ha, hb⟩ := hab
        exact absurd (by simp [ha, hb] : (a == IACb && b == SEb) = true)
          (by simpa using hin.1)

theorem ReadByte_cmd {c : Nat} (o : Nat) (s : List Nat)
    (hc : c = WILLb ∨ c = WONTb ∨ c = DOb ∨ c = DONTb) :
    ReadByte (IACb :: c :: o :: s) = ReadByte s := by
  rw [ReadByte_cons, if_pos rfl]
  have hsc : skipCommand (c :: o :: s) = some s := by
    simp [skipCommand, hc]
  rw [hsc]

theorem ReadByte_sub (inner : List Nat) (hin : noIACSE inner = true)
    (s : List Nat) :
    ReadByte (IACb :: SBb :: (inner ++ IACb :: SEb :: s)) = ReadByte s := by
  rw [ReadByte_cons, if_pos rfl]
  have hsc : skipCommand (SBb :: (inner ++ IACb :: SEb :: s)) = some s := by
    have hnc : ¬ (SBb = WILLb ∨ SBb = WONTb ∨ SBb = DOb ∨ SBb = DONTb) := by
      simp [SBb, WILLb, WONTb, DOb, DONTb]
    simp only [skipCommand, if_neg hnc, if_pos rfl]
    exact skipSBSequence_through inner hin SBb s
  rw [hsc]

/-- C1 counterexample: the claim says the line-start scan looks for `'\n'`
immediately followed by `'\r'` and that for the buffer `"abc\n\rdef"` the
current fragment is `"def"`.  On that buffer (with previous line start 0 and
`delimPos` 8) the code finds no boundary: the line start stays 0 and the
fragment is the whole buffer, not `"def"`. -/
theorem c1_counterexample :
    lineStart [97, 98, 99, 10, 13, 100, 101, 102] 0 = 0 ∧
      (([97, 98, 99, 10, 13, 100, 101, 102] : List Nat).take 8).drop
          (lineStart [97, 98, 99, 10, 13, 100, 101, 102] 0) =
        [97, 98, 99, 10, 13, 100, 101, 102] ∧
      ¬ (([97, 98, 99, 10, 13, 100, 101, 102] : List Nat).take 8).drop
          (lineStart [97, 98, 99, 10, 13, 100, 101, 102] 0) =
        [100, 101, 102] := by
  refine ⟨by decide, by decide, by decide⟩

/-- C1 (amended): `ReadUntilPrompt` recomputes the line-start offset on each
fragment by scanning the whole buffer backward for the most recent two-byte
sequence carriage return followed by newline (`'\r'` at index `i`
immediately followed by `'\n'` at index `i + 1`); if found, the line-start
offset becomes `i + 2`, otherwise it keeps its previous value.  For the
buffer `"abc\r\ndef"` the fragment is `"def"`; for `"abc\n\rdef"` no
boundary is found and the fragment is the whole buffer. -/
theorem c1_line_start_rule :
    (∀ data : List Nat,
        (findNewLinePos data = -1 ∧ ∀ j, ¬ NLpair data j) ∨
          (∃ i : Nat, findNewLinePos data = (i : Int) ∧ NLpair data i ∧
            ∀ j, NLpair data j → j ≤ i)) ∧
      (∀ (output : List Nat) (prev : Nat),
        lineStart output prev =
          if findNewLinePos output = -1 then prev
          else (findNewLinePos output).toNat + 2) ∧
      lineStart [97, 98, 99, 13, 10, 100, 101, 102] 0 = 5 ∧
      (([97, 98, 99, 13, 10, 100, 101, 102] : List Nat).take 8).drop
          (lineStart [97, 98, 99, 13, 10, 100, 101, 102] 0) = [100, 101, 102] ∧
      lineStart [97, 98, 99, 10, 13, 100, 101, 102] 0 = 0 := by
  exact ⟨findNewLinePos_spec, fun _ _ => rfl, by decide, by decide, by decide⟩

/-- C3 counterexample: the claim says that after the escape marker an
unrecognized following byte is discarded together with the marker and never
delivered as payload.  On the stream `[255, 65]` the code consumes only the
escape marker: the byte 65 is delivered to the caller as payload. -/
theorem c3_counterexample :
    ReadByte [255, 65] = some (65, []) ∧
      decodeAll [255, 65] = [65] ∧ ¬ decodeAll [255, 65] = [] := by
  refine ⟨by decide, by decide, by decide⟩

/-- C3 (amended): when the escape marker is followed by a byte that is none
of WILL, WONT, DO, DONT or SB, only the escape marker is consumed; the
following byte stays in the stream and (when it is not itself the escape
marker) is delivered to the caller as the next payload byte. -/
theorem c3_unrecognized_command (b : Nat) (s : List Nat)
    (hb : ¬ (b = WILLb ∨ b = WONTb ∨ b = DOb ∨ b = DONTb ∨ b = SBb))
    (hIAC : b ≠ IACb) :
    ReadByte (IACb :: b :: s) = some (b, s) := by
  rw [ReadByte_cons, if_pos rfl]
  have hsc : skipCommand (b :: s) = some (b :: s) := by
    simp only [skipCommand]
    rw [if_neg (by tauto), if_neg (by tauto)]
  rw [hsc]
  show ReadByte (b :: s) = some (b, s)
  rw [ReadByte_cons, if_neg hIAC]

/-- Witness for C3 (amended) at the stream `[255, 65, 66]`. -/
theorem c3_witness : ReadByte [255, 65, 66] = some (65, [66]) :=
  c3_unrecognized_command 65 [66] (by decide) (by decide)

/-- C5 counterexample: the claim says that when the delimiter is the very
first byte examined, `ReadUntil` returns zero with no bytes appended.  On
the stream starting with the delimiter byte 32 the code reads it, appends
it and returns count 1. -/
theorem c5_counterexample :
    (ReadUntil [] 32 [32]).data = [32] ∧ (ReadUntil [] 32 [32]).n = 1 ∧
      (ReadUntil [] 32 [32]).ok = true ∧ ¬ (ReadUntil [] 32 [32]).n = 0 := by
  refine ⟨by decide, by decide, by decide, by decide⟩

/-- C5 (amended): `ReadUntil` compares the delimiter against the previously
read byte, a variable that starts at zero.  For a delimiter byte other than
0, a successful call appends exactly the payload bytes read, in order, up to
and including the first occurrence of the delimiter, and returns their
count; a delimiter that arrives as the very first byte read is appended and
counted (count 1, not 0).  For delimiter byte 0 the call returns
immediately: count 0, nothing appended, nothing read. -/
theorem c5_read_until :
    (∀ (acc s : List Nat), ReadUntil acc 0 s = ⟨acc, 0, s, true⟩) ∧
      (∀ (acc s : List Nat) (delim : Nat), delim ≠ 0 →
        (ReadUntil acc delim s).ok = true →
        ∃ w, (ReadUntil acc delim s).data = acc ++ w ∧
          (ReadUntil acc delim s).n = w.length ∧
          w ≠ [] ∧ w.getLast? = some delim ∧ ¬ delim ∈ w.dropLast) := by
  constructor
  · intro acc s
    rfl
  · intro acc s delim hd hok
    exact ReadUntil_ok_spec hd hok

/-- C10: whenever `ReadByte` returns without an error, the delivered byte is
never the escape marker 255: the loop only exits with `b ≠ IAC` (or an
error), so in particular `IAC IAC` never yields a literal 255 payload
byte. -/
theorem c10_never_delivers_iac (s rest : List Nat) (b : Nat)
    (h : ReadByte s = some (b, rest)) : b ≠ IACb :=
  readByteF_not_IAC h

/-- Witness for C10 at the stream `IAC IAC 65`: the doubled escape marker
delivers 65, not 255. -/
theorem c10_witness :
    ReadByte [255, 255, 65] = some (65, []) ∧ (65 : Nat) ≠ IACb :=
  ⟨by decide, c10_never_delivers_iac [255, 255, 65] [] 65 (by decide)⟩

/-- C6 counterexample: the claim says that on a fragment matching both the
login pattern and the password pattern the predicate acts twice, writing
both responses.  On the fragment `"login: Password:"`, with a login pattern
matching `"login:"` and a password pattern matching `"Password:"` (both
patterns match the fragment), the code writes only the login response and
never the password response. -/
theorem c6_counterexample :
    (literalFind [108, 111, 103, 105, 110, 58]
        ([108, 111, 103, 105, 110, 58] ++ [32] ++
          [80, 97, 115, 115, 119, 111, 114, 100, 58])).length ≠ 0 ∧
      (literalFind [80, 97, 115, 115, 119, 111, 114, 100, 58]
        ([108, 111, 103, 105, 110, 58] ++ [32] ++
          [80, 97, 115, 115, 119, 111, 114, 100, 58])).length ≠ 0 ∧
      waitWelcomeSignsStep (literalFind [108, 111, 103, 105, 110, 58])
          (literalFind [80, 97, 115, 115, 119, 111, 114, 100, 58])
          (literalFind [36]) [97] [98]
          ([108, 111, 103, 105, 110, 58] ++ [32] ++
            [80, 97, 115, 115, 119, 111, 114, 100, 58]) =
        (false, [[97, 13, 10]]) ∧
      ¬ (waitWelcomeSignsStep (literalFind [108, 111, 103, 105, 110, 58])
          (literalFind [80, 97, 115, 115, 119, 111, 114, 100, 58])
          (literalFind [36]) [97] [98]
          ([108, 111, 103, 105, 110, 58] ++ [32] ++
            [80, 97, 115, 115, 119, 111, 114, 100, 58])).2 =
        [[97, 13, 10], [98, 13, 10]] := by
  refine ⟨by decide, by decide, by decide, by decide⟩

/-- C6 (amended): pattern checks run in login, password, banner order and
the first successful match short-circuits the rest of the call: on a
fragment matching the login pattern the predicate writes only the login
response followed by CR LF, returns false, and never consults the password
or banner patterns' actions. -/
theorem c6_login_short_circuits (loginFind passwordFind bannerF : List Nat → List Nat)
    (login password data : List Nat) (hm : (loginFind data).length ≠ 0) :
    waitWelcomeSignsStep loginFind passwordFind bannerF login password data =
      (false, [login ++ [13, 10]]) := by
  rw [waitWelcomeSignsStep]
  have h1 : findInputPrompt loginFind login data = (true, [login ++ [13, 10]]) := by
    rw [findInputPrompt, if_neg hm]
  rw [h1]
  simp

/-- Witness for C6 (amended) at a fragment matching only the login
pattern. -/
theorem c6_witness :
    waitWelcomeSignsStep (literalFind [108, 111, 103, 105, 110, 58])
        (literalFind [1]) (literalFind [2]) [97] [98]
        [108, 111, 103, 105, 110, 58] = (false, [[97, 13, 10]]) :=
  c6_login_short_circuits (literalFind [108, 111, 103, 105, 110, 58])
    (literalFind [1]) (literalFind [2]) [97] [98]
    [108, 111, 103, 105, 110, 58] (by decide)

/-- C8: `Execute` discards exactly the bytes buffered but unread on the
connection, writes `name + " " + strings.Join(args, " ") + "\r\n"`, and
returns the result of `ReadUntilBanner` on the remaining stream; in
particular `Execute("ls", "-l")` writes the bytes of `"ls -l\r\n"`. -/
theorem c8_execute :
    (∀ (buffered pending name : List Nat) (args : List (List Nat)) (delim : Nat),
        Execute buffered pending name args delim =
          (name ++ [32] ++ joinBytes args ++ [13, 10],
            ReadUntilBanner delim pending)) ∧
      (Execute [] execScenario [108, 115] [[45, 108]] 32).1 =
        [108, 115, 32, 45, 108, 13, 10] := by
  constructor
  · intro buffered pending name args delim
    rw [Execute]
    rw [List.drop_left]
  · decide

/-- C2 counterexample: the claim says `Execute("ls", "-l")` on receiving
`"\n\rfile1\nfile2\n\ruser@host:~$ "` returns exactly `"file1\nfile2"`.
The code removes the banner match and trims only space bytes (32), so the
leading `"\n\r"` and trailing `"\n\r"` remain: the result is
`"\n\rfile1\nfile2\n\r"`. -/
theorem c2_counterexample :
    (Execute [] execScenario [108, 115] [[45, 108]] 32).2.1 =
        [10, 13, 102, 105, 108, 101, 49, 10, 102, 105, 108, 101, 50, 10, 13] ∧
      ¬ (Execute [] execScenario [108, 115] [[45, 108]] 32).2.1 =
        [102, 105, 108, 101, 49, 10, 102, 105, 108, 101, 50] := by
  refine ⟨by decide, by decide⟩

/-- C2 (amended): `Execute` returns the remote bytes accumulated up to and
including the first fragment containing a banner match, with every
occurrence of the banner pattern removed from the full output and with
leading and trailing space bytes (only byte 32) trimmed; on the scenario
stream `"\n\rfile1\nfile2\n\ruser@host:~$ "` with the default banner
pattern and delimiter it returns `"\n\rfile1\nfile2\n\r"`, the surrounding
CR and LF bytes included. -/
theorem c2_execute_output :
    (∀ (delim : Nat) (s : List Nat),
        ReadUntilBanner delim s =
          (trimSpace (bannerReplaceAll (ReadUntilPrompt bannerStop delim s).1),
            (ReadUntilPrompt bannerStop delim s).2.1,
            (ReadUntilPrompt bannerStop delim s).2.2)) ∧
      (∀ (buffered pending name : List Nat) (args : List (List Nat)) (delim : Nat),
        (Execute buffered pending name args delim).2 = ReadUntilBanner delim pending) ∧
      (Execute [] execScenario [108, 115] [[45, 108]] 32).2.1 =
        [10, 13, 102, 105, 108, 101, 49, 10, 102, 105, 108, 101, 50, 10, 13] ∧
      (Execute [] execScenario [108, 115] [[45, 108]] 32).2.2.1 = RPStatus.stopped := by
  refine ⟨fun delim s => rfl, fun buffered pending name args delim => ?_, by decide, by decide⟩
  rw [Execute, List.drop_left]

/-- C4 counterexample: the claim says a failed read operation discards the
partial output.  On the stream `"ab"` (no delimiter byte before the input
ends) `ReadUntilPrompt` fails with a read error yet returns the partial
output `"ab"` to the caller together with the error. -/
theorem c4_counterexample :
    ReadUntilPrompt (fun _ => false) 32 [97, 98] = ([97, 98], RPStatus.readErr, []) ∧
      ¬ (ReadUntilPrompt (fun _ => false) 32 [97, 98]).1 = [] := by
  refine ⟨by decide, by decide⟩

/-- C4 (amended): every read operation that fails with a read error —
whether the failure happens on the first fragment or after any number of
successful fragments — returns the error together with the partial output
accumulated during that call: `ReadUntilPrompt` returns all the payload
bytes decoded before the failure, `ReadUntilBanner` returns them
banner-stripped and space-trimmed, and `Execute` passes that processed
partial output through.  Nothing is discarded. -/
theorem c4_partial_output_kept :
    (∀ (process : List Nat → Bool) (delim : Nat) (s : List Nat),
        (ReadUntilPrompt process delim s).2.1 = RPStatus.readErr →
        (ReadUntilPrompt process delim s).1 = decodeAll s) ∧
      (∀ (delim : Nat) (s : List Nat),
        (ReadUntilBanner delim s).2.1 = RPStatus.readErr →
        (ReadUntilBanner delim s).1 = trimSpace (bannerReplaceAll (decodeAll s))) ∧
      (∀ (buffered pending name : List Nat) (args : List (List Nat)) (delim : Nat),
        (Execute buffered pending name args delim).2.2.1 = RPStatus.readErr →
        (Execute buffered pending name args delim).2.1 =
          trimSpace (bannerReplaceAll (decodeAll pending))) := by
  have hrup : ∀ (process : List Nat → Bool) (delim : Nat) (s : List Nat),
      (ReadUntilPrompt process delim s).2.1 = RPStatus.readErr →
      (ReadUntilPrompt process delim s).1 = decodeAll s := by
    intro process delim s h
    rcases hR : ReadUntilPrompt process delim s with ⟨out, status, r⟩
    rw [hR] at h
    simp only at h
    subst h
    have := rupLoop_err_output process delim (s.length + 1) ⟨[], 0, 0, s⟩ out r hR
    simpa using this
  have hrub : ∀ (delim : Nat) (s : List Nat),
      (ReadUntilBanner delim s).2.1 = RPStatus.readErr →
      (ReadUntilBanner delim s).1 = trimSpace (bannerReplaceAll (decodeAll s)) := by
    intro delim s h
    have hst : (ReadUntilBanner delim s).2.1 =
        (ReadUntilPrompt bannerStop delim s).2.1 := rfl
    have hout : (ReadUntilBanner delim s).1 =
        trimSpace (bannerReplaceAll (ReadUntilPrompt bannerStop delim s).1) := rfl
    rw [hout, hrup bannerStop delim s (hst ▸ h)]
  refine ⟨hrup, hrub, ?_⟩
  intro buffered pending name args delim
  have hE : (Execute buffered pending name args delim).2 =
      ReadUntilBanner delim pending := by
    rw [Execute, List.drop_left]
  rw [hE]
  exact hrub delim pending

/-- Witness for C4 (amended) at the stream `"a b"` with the default
delimiter: the first fragment `"a "` succeeds, the read error happens on the
second fragment, and the returned output is the whole accumulated
`"a b"`. -/
theorem c4_witness :
    (ReadUntilPrompt (fun _ => false) 32 [97, 32, 98]).2.1 = RPStatus.readErr ∧
      (ReadUntilPrompt (fun _ => false) 32 [97, 32, 98]).1 = decodeAll [97, 32, 98] ∧
      decodeAll [97, 32, 98] = [97, 32, 98] :=
  ⟨by decide,
    c4_partial_output_kept.1 (fun _ => false) 32 [97, 32, 98] (by decide),
    by decide⟩

/-- C7: for every well-formed input stream the decoder delivers exactly the
payload bytes, unchanged and in order: an escape marker followed by
WILL/WONT/DO/DONT plus one option byte is consumed entirely, and a
subnegotiation block from `IAC SB` up to and including the terminating
`IAC SE` is consumed entirely, for inner contents of any length (0 or
more) containing no adjacent `IAC, SE` pair. -/
theorem c7_decoder_payload (s p : List Nat) (h : Wf s p) : decodeAll s = p := by
  induction h with
  | nil => rfl
  | payload b hb hIAC h ih =>
    rw [decodeAll_eq]
    rw [ReadByte_cons, if_neg hIAC]
    dsimp only
    rw [ih]
  | cmd c o hc ho h ih =>
    rw [decodeAll_congr (ReadByte_cmd o _ hc)]
    exact ih
  | sub inner hin hbytes h ih =>
    rw [decodeAll_congr (ReadByte_sub inner hin _)]
    exact ih

/-- Witness for C7 at the stream
`97, IAC WILL 1, 98, IAC SB IAC SE, 99, IAC SB 5 255 3 IAC SE, 100`:
a 2-byte command, an empty subnegotiation body and a 3-byte body are all
removed and the payload `97, 98, 99, 100` survives unchanged. -/
theorem c7_witness :
    decodeAll [97, 255, 251, 1, 98, 255, 250, 255, 240, 99,
        255, 250, 5, 255, 3, 255, 240, 100] = [97, 98, 99, 100] :=
  c7_decoder_payload _ _
    (Wf.payload 97 (by decide) (by decide)
      (Wf.cmd 251 1 (by decide) (by decide)
        (Wf.payload 98 (by decide) (by decide)
          (Wf.sub [] (by decide) (by decide)
            (Wf.payload 99 (by decide) (by decide)
              (Wf.sub [5, 255, 3] (by decide) (by decide)
                (Wf.payload 100 (by decide) (by decide) Wf.nil)))))))

/-- C9: one iteration of the `ReadUntilPrompt` loop preserves the scan
cursor invariant `0 ≤ linePos ≤ delimPos ≤ length(output)` (with
`delimPos = length(output)` exactly), both offsets are monotonically
non-decreasing across the iteration, and the fragment handed to the
stopping predicate is exactly `output[linePos:delimPos]`.  The initial
state of every run, with empty output and both offsets 0, satisfies the
invariant. -/
theorem c9_scan_invariant (delim : Nat) (st : ScanState)
    (hInv : ScanInv st) (_hok : (rupMeasure delim st).1.ok = true) :
    ScanInv ⟨[], 0, 0, st.rest⟩ ∧
      ScanInv ⟨(rupMeasure delim st).1.data, (rupMeasure delim st).2.1,
        (rupMeasure delim st).2.2.1, (rupMeasure delim st).1.rest⟩ ∧
      st.delimPos ≤ (rupMeasure delim st).2.1 ∧
      st.linePos ≤ (rupMeasure delim st).2.2.1 ∧
      (rupMeasure delim st).2.1 = ((rupMeasure delim st).1.data).length ∧
      (rupMeasure delim st).2.2.2 =
        (((rupMeasure delim st).1.data).take ((rupMeasure delim st).2.1)).drop
          ((rupMeasure delim st).2.2.1) := by
  obtain ⟨hdp0, hlp0, hhist⟩ := hInv
  obtain ⟨w, hw, hn⟩ := ReadUntil_extend st.output delim st.rest
  have hr1 : (rupMeasure delim st).1 = ReadUntil st.output delim st.rest := rfl
  have hr2 : (rupMeasure delim st).2.1 =
      st.delimPos + (ReadUntil st.output delim st.rest).n := rfl
  have hr3 : (rupMeasure delim st).2.2.1 =
      lineStart (ReadUntil st.output delim st.rest).data st.linePos := rfl
  have hlen : (ReadUntil st.output delim st.rest).data.length =
      st.output.length + w.length := by
    rw [hw]; simp
  have hdpnew : (rupMeasure delim st).2.1 =
      (ReadUntil st.output delim st.rest).data.length := by
    rw [hr2, hn, hlen, hdp0]
  have hmono : ∀ j, NLpair st.output j →
      NLpair (ReadUntil st.output delim st.rest).data j := by
    intro j hj
    rw [hw]
    exact NLpair_append w hj
  have hlpchar :
      ((rupMeasure delim st).2.2.1 = st.linePos ∧
          ∀ j, ¬ NLpair (ReadUntil st.output delim st.rest).data j) ∨
        (∃ i : Nat, (rupMeasure delim st).2.2.1 = i + 2 ∧
          NLpair (ReadUntil st.output delim st.rest).data i ∧
          ∀ j, NLpair (ReadUntil st.output delim st.rest).data j → j ≤ i) := by
    rcases findNewLinePos_spec (ReadUntil st.output delim st.rest).data with
      ⟨hneg, hnone⟩ | ⟨i, hpos, hpairI, hmax⟩
    · exact Or.inl ⟨by rw [hr3, lineStart, if_pos hneg], hnone⟩
    · have hne : ¬ findNewLinePos (ReadUntil st.output delim st.rest).data = -1 := by
        rw [hpos]; omega
      refine Or.inr ⟨i, ?_, hpairI, hmax⟩
      rw [hr3, lineStart, if_neg hne, hpos]
      simp
  have hlpmono : st.linePos ≤ (rupMeasure delim st).2.2.1 := by
    rcases hlpchar with ⟨heq, hnone⟩ | ⟨i, heq, hpairI, hmax⟩
    · omega
    · rcases hhist with h0 | ⟨h2, hpair⟩
      · omega
      · have := hmax _ (hmono _ hpair)
        omega
  have hlpbound : (rupMeasure delim st).2.2.1 ≤ (rupMeasure delim st).2.1 := by
    rcases hlpchar with ⟨heq, hnone⟩ | ⟨i, heq, hpairI, hmax⟩
    · rw [heq, hr2]
      omega
    · rw [heq, hdpnew]
      have := hpairI.2.2
      omega
  have hhist' : (rupMeasure delim st).2.2.1 = 0 ∨
      (2 ≤ (rupMeasure delim st).2.2.1 ∧
        NLpair ((rupMeasure delim st).1.data) ((rupMeasure delim st).2.2.1 - 2)) := by
    rcases hlpchar with ⟨heq, hnone⟩ | ⟨i, heq, hpairI, hmax⟩
    · rcases hhist with h0 | ⟨h2, hpair⟩
      · exact Or.inl (by omega)
      · exact absurd (hmono _ hpair) (hnone _)
    · refine Or.inr ⟨by omega, ?_⟩
      rw [hr1]
      have hi : (rupMeasure delim st).2.2.1 - 2 = i := by omega
      rw [hi]
      exact hpairI
  exact ⟨⟨rfl, le_refl 0, Or.inl rfl⟩, ⟨hdpnew, hlpbound, hhist'⟩,
    by rw [hr2]; omega, hlpmono, hdpnew, rfl⟩

/-- Witness for C9 at the state with empty output, both offsets 0 and the
stream `"x "`. -/
theorem c9_witness :
    ScanInv ⟨(rupMeasure 32 ⟨[], 0, 0, [120, 32]⟩).1.data,
      (rupMeasure 32 ⟨[], 0, 0, [120, 32]⟩).2.1,
      (rupMeasure 32 ⟨[], 0, 0, [120, 32]⟩).2.2.1,
      (rupMeasure 32 ⟨[], 0, 0, [120, 32]⟩).1.rest⟩ :=
  (c9_scan_invariant 32 ⟨[], 0, 0, [120, 32]⟩ (by decide) (by decide)).2.1

end Telnet
